import Mathlib

/-!
# Verification of the witnet-rust protocol-governance core

Shallow embedding of `data_structures/src/mainnet_validations.rs` (TAPI
engine: `TapiEngine`, `BitTapiCounter`, `BitVotesCounter`,
`in_emergency_period`) together with spec-modelled definitions for the
committee sampler and the two-thirds consensus threshold, whose production
implementations live outside the provided sources.

Modelling conventions:
* Machine integers (`u32`, `usize`) are modelled as `Nat`.  The vote
  accumulation arithmetic (`votes + 1`, `votes * 100`, `block_epoch + 21`),
  which is performed on `u32` in the source and can conceivably wrap, is
  modelled with an explicit `% 2^32`.  Epoch comparisons and the guarded
  subtraction `epoch_to_update - init` (only evaluated when
  `epoch_to_update >= init`) cannot wrap for `u32`-ranged inputs and are
  modelled with plain `Nat` arithmetic.  (`last_epoch + 1` in the gap check
  would wrap in the source only at `last_epoch = u32::MAX`, where a debug
  build panics; that point is outside the modelled domain.)
* `HashMap<String, Epoch>` (the activation registry) is modelled as an
  association list; the source only ever inserts keys that are absent, so
  insertion is modelled as `cons` and lookup takes the first binding.
* `HashSet<String>` (the avoid list) is modelled as `List String` with
  membership.
* `[Option<BitVotesCounter>; 32]` is modelled as a `List` of length 32.
* `PublicKeyHash` values are represented by their bech32 address strings
  (the committee is compared as the fixed list of address literals).
-/

/-- Network environment (`witnet_data_structures::chain::Environment`). -/
inductive Environment where
  | Mainnet
  | Testnet
  | Development
deriving DecidableEq

/-- Struct that counts the positive votes of a WIP
(`BitVotesCounter` in `mainnet_validations.rs`). -/
structure BitVotesCounter where
  votes : Nat
  period : Nat
  wip : String
  init : Nat
  «end» : Nat
  bit : Nat
deriving DecidableEq

/-- `BitTapiCounter` in `mainnet_validations.rs`: a fixed array of 32
optional vote counters, the last processed epoch and the cached
one-past-the-highest-occupied-slot length. -/
structure BitTapiCounter where
  info : List (Option BitVotesCounter)
  last_epoch : Nat
  current_length : Nat
deriving DecidableEq

/-- `BitTapiCounter::default()`: 32 empty slots. -/
def BitTapiCounter.empty : BitTapiCounter :=
  { info := List.replicate 32 none, last_epoch := 0, current_length := 0 }

/-- `BitTapiCounter::get`: the counter at `bit` restricted to its voting
window `[init, end)`. -/
def BitTapiCounter.get (c : BitTapiCounter) (bit epoch : Nat) :
    Option BitVotesCounter :=
  match c.info[bit]? with
  | some (some bi) =>
      if bi.init ≤ epoch ∧ epoch < bi.«end» then some bi else none
  | _ => none

/-- `BitTapiCounter::insert`: writes `bit_info` at index `bit_info.bit`;
out-of-range positions are logged and dropped in the source (no-op here);
`current_length` is bumped when the slot extends the occupied span. -/
def BitTapiCounter.insert (c : BitTapiCounter) (bit_info : BitVotesCounter) :
    BitTapiCounter :=
  let k := bit_info.bit
  if k ≥ c.info.length then c
  else
    { c with
      info := c.info.set k (some bit_info),
      current_length := if k ≥ c.current_length then k + 1 else c.current_length }

/-- `BitTapiCounter::update_current_length`: the source iterates over all
occupied slots and keeps `bit + 1` of the last one seen. -/
def BitTapiCounter.update_current_length (c : BitTapiCounter) : BitTapiCounter :=
  { c with
    current_length :=
      c.info.foldl (fun acc slot =>
        match slot with
        | some bit_info => bit_info.bit + 1
        | none => acc) 0 }

/-- `BitTapiCounter::remove`: clears the slot (no-op when out of range) and
recomputes `current_length` when the removed slot was the last occupied one. -/
def BitTapiCounter.remove (c : BitTapiCounter) (bit : Nat) : BitTapiCounter :=
  if bit ≥ c.info.length then c
  else
    let c' := { c with info := c.info.set bit none }
    if bit + 1 = c.current_length then c'.update_current_length else c'

/-- `BitTapiCounter::contains`. -/
def BitTapiCounter.contains (c : BitTapiCounter) (bit : Nat) (wip : String) :
    Bool :=
  match c.info[bit]? with
  | some (some bit_info) => bit_info.wip = wip
  | _ => false

/-- `BitTapiCounter::len`. -/
def BitTapiCounter.len (c : BitTapiCounter) : Nat := c.current_length

/-- `BitTapiCounter::is_empty`. -/
def BitTapiCounter.isEmptyB (c : BitTapiCounter) : Bool := c.current_length = 0

/-- Lookup in the activation registry (`HashMap::get` semantics:
first binding wins; the engine only ever inserts absent keys). -/
def actLookup : List (String × Nat) → String → Option Nat
  | [], _ => none
  | (k, v) :: rest, w => if k = w then some v else actLookup rest w

/-- Insertion into the activation registry (`HashMap::insert`; keys are
guaranteed absent at every call site, so `cons` is exact). -/
def actInsert (m : List (String × Nat)) (k : String) (v : Nat) :
    List (String × Nat) :=
  (k, v) :: m

/-- `is_bit_n_activated` in `mainnet_validations.rs`: `v & (1 << n) != 0`. -/
def is_bit_n_activated (v n : Nat) : Bool :=
  v &&& (1 <<< n) != 0

/-- `TapiEngine` in `mainnet_validations.rs`. -/
structure TapiEngine where
  bit_tapi_counter : BitTapiCounter
  wip_activation : List (String × Nat)
deriving DecidableEq

/-- `TapiEngine::default()`. -/
def TapiEngine.empty : TapiEngine :=
  { bit_tapi_counter := BitTapiCounter.empty, wip_activation := [] }

/-- One iteration of the bit loop of `TapiEngine::update_bit_counter`
(the body of `for n in 0..self.bit_tapi_counter.len()`): fetch the counter
active at `epoch_to_update`, count the vote, and on a period boundary
evaluate the 80% activation threshold and reset the tally. -/
def updateBitStep (v epoch_to_update block_epoch : Nat)
    (avoid_wip_list : List String) (s : TapiEngine) (n : Nat) : TapiEngine :=
  match s.bit_tapi_counter.get n epoch_to_update with
  | none => s
  | some bc =>
    if actLookup s.wip_activation bc.wip = none ∧ bc.wip ∉ avoid_wip_list then
      let votes1 :=
        if is_bit_n_activated v n then (bc.votes + 1) % 4294967296 else bc.votes
      if (epoch_to_update - bc.init) % bc.period = 0 then
        { bit_tapi_counter :=
            { s.bit_tapi_counter with
              info := s.bit_tapi_counter.info.set n (some { bc with votes := 0 }) },
          wip_activation :=
            if 80 ≤ votes1 * 100 % 4294967296 / bc.period then
              actInsert s.wip_activation bc.wip ((block_epoch + 21) % 4294967296)
            else s.wip_activation }
      else
        { bit_tapi_counter :=
            { s.bit_tapi_counter with
              info := s.bit_tapi_counter.info.set n (some { bc with votes := votes1 }) },
          wip_activation := s.wip_activation }
    else s

/-- The non-recursive tail of `TapiEngine::update_bit_counter`: the bit
loop over `0..len()` followed by the unconditional `last_epoch` update. -/
def processEpoch (s : TapiEngine) (v epoch_to_update block_epoch : Nat)
    (avoid_wip_list : List String) : TapiEngine :=
  let s' := (List.range s.bit_tapi_counter.current_length).foldl
      (updateBitStep v epoch_to_update block_epoch avoid_wip_list) s
  { s' with
    bit_tapi_counter := { s'.bit_tapi_counter with last_epoch := epoch_to_update } }

/-- The body of `TapiEngine::update_bit_counter`, made structurally
recursive on a fuel counter so that the kernel can evaluate it.  The
recursion of the source decreases the epoch (every backfilled epoch `i`
satisfies `i < epoch_to_update`), so any `fuel ≥ epoch_to_update` yields
the source's behaviour (`updateGo_fuel_irrelevant` below).  The `foldl`
over `List.range' init (end - init)` is the `for i in init..end` loop. -/
def updateGo : Nat → TapiEngine → Nat → Nat → Nat → List String → TapiEngine
  | 0, s, v, epoch_to_update, block_epoch, avoid_wip_list =>
      processEpoch s v epoch_to_update block_epoch avoid_wip_list
  | fuel + 1, s, v, epoch_to_update, block_epoch, avoid_wip_list =>
      let s1 :=
        if s.bit_tapi_counter.last_epoch ≠ 0 ∧
            s.bit_tapi_counter.last_epoch + 1 < epoch_to_update then
          (List.range' (s.bit_tapi_counter.last_epoch + 1)
              (epoch_to_update - (s.bit_tapi_counter.last_epoch + 1))).foldl
            (fun st i => updateGo fuel st 0 i block_epoch avoid_wip_list) s
        else s
      processEpoch s1 v epoch_to_update block_epoch avoid_wip_list

/-- `TapiEngine::update_bit_counter`: if a prior epoch was processed and a
gap is detected, first recursively process every skipped epoch with vote
bitmap 0, then process `epoch_to_update` itself (`updateGo` with
sufficient fuel; a gap requires `epoch_to_update ≥ 3`, so the fuel-0 case
of `updateGo` is never reached with a pending gap). -/
def TapiEngine.update_bit_counter (s : TapiEngine)
    (v epoch_to_update block_epoch : Nat) (avoid_wip_list : List String) :
    TapiEngine :=
  updateGo epoch_to_update s v epoch_to_update block_epoch avoid_wip_list

/-- The fixed emergency signing committee for superblock indices in
(750, 1344) (`FIRST_EMERGENCY_COMMITTEE`), as bech32 address strings. -/
def FIRST_EMERGENCY_COMMITTEE : List String :=
  [ "wit1asdpcspwysf0hg5kgwvgsp2h6g65y5kg9gj5dz",
    "wit13l337znc5yuualnxfg9s2hu9txylntq5pyazty",
    "wit17nnjuxmfuu92l6rxhque2qc3u2kvmx2fske4l9",
    "wit1drcpu0xc2akfcqn8r69vw70pj8fzjhjypdcfsq",
    "wit1cyrlc64hyu0rux7hclmg9rxwxpa0v9pevyaj2c",
    "wit1g0rkajsgwqux9rnmkfca5tz6djg0f87x7ms5qx",
    "wit1etherz02v4fvqty6jhdawefd0pl33qtevy7s4z" ]

/-- `in_emergency_period` in `mainnet_validations.rs`: the hard-coded
committee iff on Mainnet with `750 < superblock_index < 1344`. -/
def in_emergency_period (superblock_index : Nat) (environment : Environment) :
    Option (List String) :=
  if Environment.Mainnet = environment ∧ superblock_index > 750 ∧
      superblock_index < 1344 then
    some FIRST_EMERGENCY_COMMITTEE
  else none

/-- Modelled from the spec: `two_thirds_consensus` lives in
`witnet_data_structures::superblock`, which is not among the provided
sources (the example file only calls it).  Spec §4.1 contract: "returns
true iff `votes * 3 >= committee_size * 2` (integer arithmetic)". -/
def two_thirds_consensus (votes committee_size : Nat) : Bool :=
  votes * 3 ≥ committee_size * 2

/-- Deterministic 64-bit linear congruential step, standing in for the
seeded pseudo-random primitive of the sampler (spec §4.2). -/
def lcgNext (state : Nat) : Nat :=
  (state * 6364136223846793005 + 1442695040888963407) % 18446744073709551616

/-- Modelled from the spec: the partial sampling-without-replacement draw
of §4.2 (the production sampler's shuffle is implemented by the external
`rand` crate, absent from the provided sources).  Each step draws the
next pseudo-random index into the remaining population and removes the
drawn element. -/
def sampleGo {α : Type} : Nat → Nat → List α → List α
  | 0, _, _ => []
  | size + 1, state, remaining =>
      if h : 0 < remaining.length then
        let state' := lcgNext state
        let k := state' % remaining.length
        remaining.get ⟨k, Nat.mod_lt _ h⟩ ::
          sampleGo size state' (remaining.eraseIdx k)
      else []

/-- Error taxonomy of the sampler (spec §4.2/§7). -/
inductive SampleError where
  | insufficientPopulation
deriving DecidableEq

/-- Modelled from the spec: `CommitteeSampler::sample` (spec §4.2).  Fails
with `InsufficientPopulation` when `size > population.len()`; otherwise
performs the seeded sampling-without-replacement draw. -/
def sample {α : Type} (population : List α) (size : Nat) (seed : Nat) :
    Except SampleError (List α) :=
  if size ≤ population.length then
    Except.ok (sampleGo size seed population)
  else
    Except.error SampleError.insufficientPopulation

/-- A registry operation for the `BitTapiCounter` slot table:
`register` = `insert`, `unregister` = `remove`. -/
inductive RegOp where
  | register : BitVotesCounter → RegOp
  | unregister : Nat → RegOp

/-- Apply one registry operation. -/
def applyOp (c : BitTapiCounter) : RegOp → BitTapiCounter
  | RegOp.register bi => c.insert bi
  | RegOp.unregister bit => c.remove bit

/-- Apply a sequence of registry operations. -/
def applyOps (c : BitTapiCounter) (ops : List RegOp) : BitTapiCounter :=
  ops.foldl applyOp c

/-- The slot stored at index `k` (flattening the out-of-range and
empty-slot cases of `info.get(k)`). -/
def slotAt (c : BitTapiCounter) (k : Nat) : Option BitVotesCounter :=
  (c.info[k]?).getD none

/-- The WIP name stored at a slot, if any. -/
def wipOf (o : Option BitVotesCounter) : Option String :=
  o.map (·.wip)

/-- `true` iff no slot other than `n` within the occupied span carries the
WIP name `w` (side condition ruling out duplicate proposal names). -/
def distinctWips (c : BitTapiCounter) (n : Nat) (w : String) : Bool :=
  (List.range c.current_length).all fun m =>
    m == n || wipOf (slotAt c m) != some w

/-- `true` iff no epoch in `[first, first + cnt)` is a period boundary of
`p` lying inside `p`'s voting window. -/
def noBoundaryIn (p : BitVotesCounter) (first cnt : Nat) : Bool :=
  (List.range' first cnt).all fun i =>
    !(decide (p.init ≤ i ∧ i < p.«end» ∧ (i - p.init) % p.period = 0))

/-- The proposal of the spec's end-to-end scenario (§8):
`{name: "test0", bit: 0, init: 10000, end: 20000, period: 100}`. -/
def wipTest0 : BitVotesCounter :=
  { votes := 0, period := 100, wip := "test0", init := 10000, «end» := 20000,
    bit := 0 }

/-- A fresh engine with `wipTest0` registered. -/
def tapiTest0 : TapiEngine :=
  { bit_tapi_counter := BitTapiCounter.empty.insert wipTest0,
    wip_activation := [] }

/-- The engine after the 89 "yes" votes `update(1, e, e, {})` for
`e = 10001 .. 10089` of the spec's end-to-end scenario. -/
def tapiVoted89 : TapiEngine :=
  (List.range' 10001 89).foldl
    (fun s e => s.update_bit_counter 1 e e []) tapiTest0

/-- Proposal used in the counterexample to the replay claim: 80 votes
already accumulated, period 100, window `[100, 10000)`. -/
def replayCexProposal : BitVotesCounter :=
  { votes := 80, period := 100, wip := "w", init := 100, «end» := 10000,
    bit := 0 }

/-- Counterexample engine state: `replayCexProposal` at bit 0 and
`last_epoch = 150`, so that a call at epoch 202 backfills across the
period boundary 200. -/
def replayCexEngine : TapiEngine :=
  { bit_tapi_counter :=
      { info := (List.replicate 32 none).set 0 (some replayCexProposal),
        last_epoch := 150, current_length := 1 },
    wip_activation := [] }

/-- Engine used to witness activation-entry preservation: `wipTest0`
registered and an existing activation entry `"test0" -> 5`. -/
def actWitnessEngine : TapiEngine :=
  { bit_tapi_counter := BitTapiCounter.empty.insert wipTest0,
    wip_activation := [("test0", 5)] }

/-- Engine with `last_epoch = 9999` used to witness the gap-backfill
equivalence at the spec's example epochs. -/
def gapWitnessEngine : TapiEngine :=
  tapiTest0.update_bit_counter 1 9999 9999 []

/-- The scan of `update_current_length` with an explicit accumulator
(the source's `for bit_info in self.info.iter().flatten() { length = bit_info.bit + 1 }`). -/
def scanFoldAux (acc : Nat) (l : List (Option BitVotesCounter)) : Nat :=
  l.foldl (fun acc slot =>
    match slot with
    | some bit_info => bit_info.bit + 1
    | none => acc) acc

/-- The span invariant of the slot table: slots are stored at the index
equal to their `bit` field, every occupied slot lies below
`current_length`, and `current_length` is 0 or points one past an
occupied slot — i.e. `current_length = max(bit) + 1` over occupied slots,
or 0 when none is occupied. -/
def spanInv (c : BitTapiCounter) : Prop :=
  c.info.length = 32 ∧
  (∀ i bi, slotAt c i = some bi → bi.bit = i ∧ i < c.current_length) ∧
  (c.current_length = 0 ∨
    ∃ bi, slotAt c (c.current_length - 1) = some bi)

/-! ## Supporting lemmas: unfolding `update_bit_counter` -/

/-- Any fuel `≥ epoch_to_update` computes the same result, so
`update_bit_counter` is well-defined as `updateGo` at fuel
`epoch_to_update`. -/
theorem updateGo_fuel_irrelevant : ∀ (e f : Nat), e ≤ f →
    ∀ (s : TapiEngine) (v b : Nat) (a : List String),
    updateGo f s v e b a = updateGo e s v e b a := by
  intro e
  induction e using Nat.strong_induction_on with
  | _ e IH =>
    intro f hf s v b a
    cases f with
    | zero =>
      have he : e = 0 := Nat.le_zero.mp hf
      subst he; rfl
    | succ f =>
      cases e with
      | zero =>
        have h : ¬(s.bit_tapi_counter.last_epoch ≠ 0 ∧
            s.bit_tapi_counter.last_epoch + 1 < 0) := by
          intro hc
          exact absurd hc.2 (by omega)
        simp only [updateGo, if_neg h]
      | succ e =>
        simp only [updateGo]
        by_cases h : s.bit_tapi_counter.last_epoch ≠ 0 ∧
            s.bit_tapi_counter.last_epoch + 1 < e + 1
        · rw [if_pos h, if_pos h]
          congr 1
          apply List.foldl_ext
          intro st i hi
          have hib := List.mem_range'_1.mp hi
          have hie : i < e + 1 := by omega
          rw [IH i hie f (by omega) st 0 b a, IH i hie e (by omega) st 0 b a]
        · rw [if_neg h, if_neg h]

/-- Without a detected gap, `update_bit_counter` is just the bit loop plus
the `last_epoch` write. -/
theorem update_bit_counter_nogap (s : TapiEngine) (v e b : Nat)
    (a : List String)
    (h : ¬(s.bit_tapi_counter.last_epoch ≠ 0 ∧
        s.bit_tapi_counter.last_epoch + 1 < e)) :
    s.update_bit_counter v e b a = processEpoch s v e b a := by
  cases e with
  | zero => rfl
  | succ e => simp only [TapiEngine.update_bit_counter, updateGo, if_neg h]

/-- With a detected gap, `update_bit_counter` first runs the recursive
zero-vote updates over every skipped epoch, then processes `e` itself. -/
theorem update_bit_counter_gap (s : TapiEngine) (v e b : Nat)
    (a : List String)
    (h1 : s.bit_tapi_counter.last_epoch ≠ 0)
    (h2 : s.bit_tapi_counter.last_epoch + 1 < e) :
    s.update_bit_counter v e b a =
      processEpoch
        ((List.range' (s.bit_tapi_counter.last_epoch + 1)
            (e - (s.bit_tapi_counter.last_epoch + 1))).foldl
          (fun st i => st.update_bit_counter 0 i b a) s)
        v e b a := by
  cases e with
  | zero => exact absurd h2 (by omega)
  | succ e =>
    simp only [TapiEngine.update_bit_counter, updateGo]
    rw [if_pos (show s.bit_tapi_counter.last_epoch ≠ 0 ∧
        s.bit_tapi_counter.last_epoch + 1 < e + 1 from ⟨h1, h2⟩)]
    congr 1
    apply List.foldl_ext
    intro st i hi
    have hib := List.mem_range'_1.mp hi
    show updateGo e st 0 i b a = updateGo i st 0 i b a
    exact updateGo_fuel_irrelevant i e (by omega) st 0 b a

/-- `processEpoch` always writes `last_epoch := e`. -/
theorem processEpoch_last (s : TapiEngine) (v e b : Nat) (a : List String) :
    (processEpoch s v e b a).bit_tapi_counter.last_epoch = e := by
  simp [processEpoch]

/-- `update_bit_counter` always ends with `last_epoch = epoch_to_update`. -/
theorem update_bit_counter_last (s : TapiEngine) (v e b : Nat)
    (a : List String) :
    (s.update_bit_counter v e b a).bit_tapi_counter.last_epoch = e := by
  by_cases h : s.bit_tapi_counter.last_epoch ≠ 0 ∧
      s.bit_tapi_counter.last_epoch + 1 < e
  · rw [update_bit_counter_gap s v e b a h.1 h.2, processEpoch_last]
  · rw [update_bit_counter_nogap s v e b a h, processEpoch_last]

/-! ## Supporting lemmas: slots and the bit-loop step -/

/-- An occupied slot index is inside the array. -/
theorem slotAt_some_lt {c : BitTapiCounter} {n : Nat} {bi : BitVotesCounter}
    (h : slotAt c n = some bi) : n < c.info.length := by
  unfold slotAt at h
  cases hg : c.info[n]? with
  | none => rw [hg] at h; exact absurd h (by simp)
  | some o => exact (List.getElem?_eq_some.mp hg).1

/-- An occupied `slotAt` comes from a `some (some _)` entry of `info`. -/
theorem info_get_of_slotAt_some {c : BitTapiCounter} {n : Nat}
    {bi : BitVotesCounter} (hs : slotAt c n = some bi) :
    c.info[n]? = some (some bi) := by
  unfold slotAt at hs
  cases hg : c.info[n]? with
  | none => rw [hg] at hs; simp at hs
  | some o =>
    rw [hg] at hs
    cases o with
    | none => simp at hs
    | some bi2 => simp only [Option.getD_some] at hs; rw [hs]

/-- `get` on an occupied slot is the window filter. -/
theorem get_of_slot_some {c : BitTapiCounter} {n : Nat}
    {bi : BitVotesCounter} (hs : slotAt c n = some bi) (e : Nat) :
    c.get n e = if bi.init ≤ e ∧ e < bi.«end» then some bi else none := by
  unfold BitTapiCounter.get
  rw [info_get_of_slotAt_some hs]

/-- `get` on an empty slot is `none`. -/
theorem get_of_slot_none {c : BitTapiCounter} {n : Nat}
    (hs : slotAt c n = none) (e : Nat) : c.get n e = none := by
  unfold BitTapiCounter.get
  cases hg : c.info[n]? with
  | none => rfl
  | some o =>
    cases o with
    | none => rfl
    | some bi =>
      unfold slotAt at hs
      rw [hg] at hs
      simp at hs

/-- A successful `get` returns the stored slot, and the epoch is inside
the slot's voting window. -/
theorem get_some_slotAt {c : BitTapiCounter} {m e : Nat}
    {bc : BitVotesCounter} (h : c.get m e = some bc) :
    slotAt c m = some bc ∧ bc.init ≤ e ∧ e < bc.«end» := by
  cases hs : slotAt c m with
  | none => rw [get_of_slot_none hs] at h; exact absurd h (by simp)
  | some bi =>
    rw [get_of_slot_some hs] at h
    by_cases hw : bi.init ≤ e ∧ e < bi.«end»
    · rw [if_pos hw] at h
      cases h
      exact ⟨rfl, hw⟩
    · rw [if_neg hw] at h
      exact absurd h (by simp)

/-- Unfolding lemma for `actLookup` on a cons cell. -/
theorem actLookup_cons (k : String) (x : Nat) (m : List (String × Nat))
    (w : String) :
    actLookup ((k, x) :: m) w = if k = w then some x else actLookup m w := rfl

/-- One bit-loop step never touches `last_epoch`, `current_length` or the
array length. -/
theorem updateBitStep_meta (v e b : Nat) (a : List String) (s : TapiEngine)
    (m : Nat) :
    (updateBitStep v e b a s m).bit_tapi_counter.last_epoch =
        s.bit_tapi_counter.last_epoch ∧
      (updateBitStep v e b a s m).bit_tapi_counter.current_length =
        s.bit_tapi_counter.current_length ∧
      (updateBitStep v e b a s m).bit_tapi_counter.info.length =
        s.bit_tapi_counter.info.length := by
  unfold updateBitStep
  cases s.bit_tapi_counter.get m e with
  | none => exact ⟨rfl, rfl, rfl⟩
  | some bc =>
    dsimp only
    by_cases h : actLookup s.wip_activation bc.wip = none ∧ bc.wip ∉ a
    · rw [if_pos h]
      by_cases h2 : (e - bc.init) % bc.period = 0
      · rw [if_pos h2]
        exact ⟨rfl, rfl, by simp⟩
      · rw [if_neg h2]
        exact ⟨rfl, rfl, by simp⟩
    · rw [if_neg h]
      exact ⟨rfl, rfl, rfl⟩

/-- One bit-loop step at index `m` leaves every other slot unchanged. -/
theorem updateBitStep_slot_ne (v e b : Nat) (a : List String)
    (s : TapiEngine) (m k : Nat) (hk : m ≠ k) :
    slotAt (updateBitStep v e b a s m).bit_tapi_counter k =
      slotAt s.bit_tapi_counter k := by
  unfold updateBitStep
  cases s.bit_tapi_counter.get m e with
  | none => rfl
  | some bc =>
    dsimp only
    by_cases h : actLookup s.wip_activation bc.wip = none ∧ bc.wip ∉ a
    · rw [if_pos h]
      by_cases h2 : (e - bc.init) % bc.period = 0
      · rw [if_pos h2]
        show (((s.bit_tapi_counter.info.set m _)[k]?).getD none) = _
        rw [List.getElem?_set_ne hk]
        rfl
      · rw [if_neg h2]
        show (((s.bit_tapi_counter.info.set m _)[k]?).getD none) = _
        rw [List.getElem?_set_ne hk]
        rfl
    · rw [if_neg h]

/-- One bit-loop step only ever rewrites the `votes` field of its own
slot, so the WIP name stored at every slot is unchanged. -/
theorem updateBitStep_wipOf (v e b : Nat) (a : List String) (s : TapiEngine)
    (m k : Nat) :
    wipOf (slotAt (updateBitStep v e b a s m).bit_tapi_counter k) =
      wipOf (slotAt s.bit_tapi_counter k) := by
  by_cases hk : m = k
  · subst hk
    unfold updateBitStep
    cases hg : s.bit_tapi_counter.get m e with
    | none => rfl
    | some bc =>
      dsimp only
      obtain ⟨hs, -⟩ := get_some_slotAt hg
      have hlt : m < s.bit_tapi_counter.info.length := slotAt_some_lt hs
      by_cases h : actLookup s.wip_activation bc.wip = none ∧ bc.wip ∉ a
      · rw [if_pos h]
        by_cases h2 : (e - bc.init) % bc.period = 0
        · rw [if_pos h2]
          show wipOf (((s.bit_tapi_counter.info.set m _)[m]?).getD none) = _
          rw [List.getElem?_set_self hlt, hs]
          rfl
        · rw [if_neg h2]
          show wipOf (((s.bit_tapi_counter.info.set m _)[m]?).getD none) = _
          rw [List.getElem?_set_self hlt, hs]
          rfl
      · rw [if_neg h]
  · rw [updateBitStep_slot_ne v e b a s m k hk]

/-- An existing activation entry survives one bit-loop step: the step only
inserts a key after checking it is absent. -/
theorem updateBitStep_act_some (v e b : Nat) (a : List String)
    (s : TapiEngine) (m : Nat) (w : String) (x : Nat)
    (h : actLookup s.wip_activation w = some x) :
    actLookup (updateBitStep v e b a s m).wip_activation w = some x := by
  unfold updateBitStep
  cases s.bit_tapi_counter.get m e with
  | none => exact h
  | some bc =>
    dsimp only
    by_cases hskip : actLookup s.wip_activation bc.wip = none ∧ bc.wip ∉ a
    · rw [if_pos hskip]
      by_cases h2 : (e - bc.init) % bc.period = 0
      · rw [if_pos h2]
        by_cases h3 : 80 ≤ (if is_bit_n_activated v m then
            (bc.votes + 1) % 4294967296 else bc.votes) * 100 % 4294967296 / bc.period
        · show actLookup (if _ then actInsert _ _ _ else _) w = some x
          rw [if_pos h3]
          show actLookup ((bc.wip, _) :: s.wip_activation) w = some x
          unfold actLookup
          by_cases hw : bc.wip = w
          · rw [hw] at hskip
            rw [hskip.1] at h
            exact absurd h (by simp)
          · rw [if_neg hw]
            exact h
        · show actLookup (if _ then actInsert _ _ _ else _) w = some x
          rw [if_neg h3]
          exact h
      · rw [if_neg h2]
        exact h
    · rw [if_neg hskip]
      exact h

/-- A step at a slot carrying a different WIP name does not change the
activation lookup of `w`. -/
theorem updateBitStep_act_ne (v e b : Nat) (a : List String)
    (s : TapiEngine) (m : Nat) (w : String)
    (h : wipOf (slotAt s.bit_tapi_counter m) ≠ some w) :
    actLookup (updateBitStep v e b a s m).wip_activation w =
      actLookup s.wip_activation w := by
  unfold updateBitStep
  cases hg : s.bit_tapi_counter.get m e with
  | none => rfl
  | some bc =>
    dsimp only
    obtain ⟨hs, -⟩ := get_some_slotAt hg
    have hwip : bc.wip ≠ w := by
      intro hc
      exact h (by rw [hs, wipOf, Option.map_some', hc])
    by_cases hskip : actLookup s.wip_activation bc.wip = none ∧ bc.wip ∉ a
    · rw [if_pos hskip]
      by_cases h2 : (e - bc.init) % bc.period = 0
      · rw [if_pos h2]
        by_cases h3 : 80 ≤ (if is_bit_n_activated v m then
            (bc.votes + 1) % 4294967296 else bc.votes) * 100 % 4294967296 / bc.period
        · show actLookup (if _ then actInsert _ _ _ else _) w = _
          rw [if_pos h3]
          show actLookup ((bc.wip, _) :: s.wip_activation) w = _
          rw [actLookup_cons, if_neg hwip]
        · show actLookup (if _ then actInsert _ _ _ else _) w = _
          rw [if_neg h3]
      · rw [if_neg h2]
    · rw [if_neg hskip]

/-- The whole bit loop preserves an existing activation entry. -/
theorem foldl_step_act_some (v e b : Nat) (a : List String) (w : String)
    (x : Nat) :
    ∀ (L : List Nat) (s : TapiEngine),
      actLookup s.wip_activation w = some x →
      actLookup (L.foldl (updateBitStep v e b a) s).wip_activation w =
        some x := by
  intro L
  induction L with
  | nil => intro s h; exact h
  | cons m L ih =>
    intro s h
    exact ih _ (updateBitStep_act_some v e b a s m w x h)

/-- `processEpoch` preserves an existing activation entry. -/
theorem processEpoch_act_some (s : TapiEngine) (v e b : Nat)
    (a : List String) (w : String) (x : Nat)
    (h : actLookup s.wip_activation w = some x) :
    actLookup (processEpoch s v e b a).wip_activation w = some x := by
  show actLookup ((List.range s.bit_tapi_counter.current_length).foldl
      (updateBitStep v e b a) s).wip_activation w = some x
  exact foldl_step_act_some v e b a w x _ s h

/-- `update_bit_counter` (including any recursive gap backfill) preserves
an existing activation entry. -/
theorem update_act_some : ∀ (e : Nat) (s : TapiEngine) (v b : Nat)
    (a : List String) (w : String) (x : Nat),
    actLookup s.wip_activation w = some x →
    actLookup (s.update_bit_counter v e b a).wip_activation w = some x := by
  intro e
  induction e using Nat.strong_induction_on with
  | _ e IH =>
    intro s v b a w x h
    by_cases hgap : s.bit_tapi_counter.last_epoch ≠ 0 ∧
        s.bit_tapi_counter.last_epoch + 1 < e
    · rw [update_bit_counter_gap s v e b a hgap.1 hgap.2]
      apply processEpoch_act_some
      have haux : ∀ (L : List Nat), (∀ i ∈ L, i < e) → ∀ (t : TapiEngine),
          actLookup t.wip_activation w = some x →
          actLookup
            ((L.foldl (fun st i => st.update_bit_counter 0 i b a) t)).wip_activation
            w = some x := by
        intro L
        induction L with
        | nil => intro _ t ht; exact ht
        | cons i L ihL =>
          intro hb t ht
          exact ihL (fun j hj => hb j (List.mem_cons_of_mem _ hj)) _
            (IH i (hb i (List.mem_cons_self _ _)) t 0 b a w x ht)
      refine haux _ ?_ s h
      intro i hi
      have := List.mem_range'_1.mp hi
      omega
    · rw [update_bit_counter_nogap s v e b a hgap]
      exact processEpoch_act_some s v e b a w x h

/-! ## Supporting lemmas: the committee sampler -/

/-- Removing the element at index `k` and re-consing it permutes the
list. -/
theorem perm_get_cons_eraseIdx {α : Type} (l : List α) (k : Nat)
    (h : k < l.length) : l.Perm (l.get ⟨k, h⟩ :: l.eraseIdx k) := by
  induction l generalizing k with
  | nil => simp at h
  | cons x xs ih =>
    cases k with
    | zero => simp
    | succ k =>
      simp only [List.get, List.eraseIdx]
      exact ((ih k (by simpa using h)).cons x).trans (List.Perm.swap _ _ _)

/-- The draw is a sub-permutation of the population it draws from. -/
theorem sampleGo_subperm {α : Type} : ∀ (size state : Nat) (l : List α),
    (sampleGo size state l).Subperm l := by
  intro size
  induction size with
  | zero => intro state l; exact List.nil_subperm
  | succ size ih =>
    intro state l
    unfold sampleGo
    by_cases h : 0 < l.length
    · rw [dif_pos h]
      dsimp only
      have h1 := ih (lcgNext state) (l.eraseIdx (lcgNext state % l.length))
      have h2 := (List.subperm_cons
        (l.get ⟨lcgNext state % l.length, Nat.mod_lt _ h⟩)).mpr h1
      exact h2.trans
        (perm_get_cons_eraseIdx l _ (Nat.mod_lt _ h)).symm.subperm
    · rw [dif_neg h]
      exact List.nil_subperm

/-- With enough population, the draw returns exactly `size` elements. -/
theorem sampleGo_length {α : Type} : ∀ (size state : Nat) (l : List α),
    size ≤ l.length → (sampleGo size state l).length = size := by
  intro size
  induction size with
  | zero => intro state l _; rfl
  | succ size ih =>
    intro state l h
    have h0 : 0 < l.length := by omega
    unfold sampleGo
    rw [dif_pos h0]
    dsimp only
    have hk : lcgNext state % l.length < l.length := Nat.mod_lt _ h0
    rw [List.length_cons,
      ih (lcgNext state) _ (by rw [List.length_eraseIdx_of_lt hk]; omega)]

/-! ## Claims -/

/-- **C2** (counterexample): the claim asserts
`meets_supermajority(33, 50) == true`, but the claim's own contract
formula gives `33 * 3 = 99 < 100 = 50 * 2`, so the threshold function
returns `false` at `(33, 50)`. -/
theorem two_thirds_consensus_at_33_50 :
    two_thirds_consensus 33 50 = false := by decide

/-- **C2** (amended): `meets_supermajority(votes, committee_size)` returns
true iff `votes * 3 >= committee_size * 2` in exact integer arithmetic;
for fixed `s` it is monotonic non-decreasing in `v`; the boundary for
`s = 50` lies between 33 (false) and 34 (true). -/
theorem two_thirds_consensus_spec (v v2 s : Nat) :
    (two_thirds_consensus v s = true ↔ s * 2 ≤ v * 3) ∧
    (v ≤ v2 → two_thirds_consensus v s = true →
      two_thirds_consensus v2 s = true) ∧
    two_thirds_consensus 34 50 = true ∧
    two_thirds_consensus 33 50 = false := by
  refine ⟨?_, ?_, by decide, by decide⟩
  · simp [two_thirds_consensus]
  · intro hle hv
    simp only [two_thirds_consensus, decide_eq_true_eq] at hv ⊢
    omega

/-- **C2** (witness): the monotonicity component applied at
`v = 34 ≤ 40 = v2`, `s = 50`. -/
theorem two_thirds_consensus_spec_witness :
    two_thirds_consensus 40 50 = true :=
  (two_thirds_consensus_spec 34 40 50).2.1 (by decide)
    (two_thirds_consensus_spec 34 40 50).2.2.1

/-- **C3**: the activation map is write-once per name under
`update_bit_counter`: an existing entry `name -> epochA` survives any
further update call, whatever the bitmap, epochs or avoid list. -/
theorem activation_write_once (s : TapiEngine) (v e b : Nat)
    (a : List String) (name : String) (epochA : Nat)
    (h : actLookup s.wip_activation name = some epochA) :
    actLookup (s.update_bit_counter v e b a).wip_activation name =
      some epochA :=
  update_act_some e s v b a name epochA h

/-- **C3** (witness): an engine with entry `"test0" -> 5` and the same
proposal registered keeps the entry across an update at a period boundary
that would otherwise re-insert it. -/
theorem activation_write_once_witness :
    actLookup
      (actWitnessEngine.update_bit_counter 1 10100 10100 []).wip_activation
      "test0" = some 5 :=
  activation_write_once actWitnessEngine 1 10100 10100 [] "test0" 5
    (by decide)

/-- **C5**: for `size ≤ population.length` and a duplicate-free
population, `sample` succeeds with exactly `size` distinct elements drawn
from the population, and it is deterministic (a pure function of its
arguments). -/
theorem sample_spec {α : Type} (population : List α) (size seed : Nat)
    (hsize : size ≤ population.length) (hnodup : population.Nodup) :
    ∃ committee,
      sample population size seed = Except.ok committee ∧
      committee.length = size ∧ committee.Nodup ∧
      (∀ x ∈ committee, x ∈ population) ∧
      sample population size seed = sample population size seed := by
  refine ⟨sampleGo size seed population, ?_, ?_, ?_, ?_, rfl⟩
  · unfold sample
    rw [if_pos hsize]
  · exact sampleGo_length size seed population hsize
  · obtain ⟨l2, hperm, hsub⟩ := sampleGo_subperm size seed population
    exact hperm.nodup_iff.mp (hnodup.sublist hsub)
  · intro x hx
    exact (sampleGo_subperm size seed population).subset hx

/-- **C5** (witness): the spec instantiated at population
`[10, 20, 30, 40, 50]`, `size = 3`, `seed = 12345`. -/
theorem sample_spec_witness :
    ∃ committee,
      sample [10, 20, 30, 40, 50] 3 12345 = Except.ok committee ∧
      committee.length = 3 ∧ committee.Nodup ∧
      (∀ x ∈ committee, x ∈ [10, 20, 30, 40, 50]) ∧
      sample [10, 20, 30, 40, 50] 3 12345 =
        sample [10, 20, 30, 40, 50] 3 12345 :=
  sample_spec [10, 20, 30, 40, 50] 3 12345 (by decide) (by decide)

/-- **C6** (counterexample): `last_epoch` can decrease across calls.
Starting from the default engine, one update at epoch 100 yields
`last_epoch = 100`, and a further update at epoch 50 — which
`update_bit_counter` accepts — lowers `last_epoch` to 50. -/
theorem last_epoch_decrease_cex :
    ((TapiEngine.empty.update_bit_counter 0 100 100
        []).update_bit_counter 0 50 50 []).bit_tapi_counter.last_epoch <
      (TapiEngine.empty.update_bit_counter 0 100 100
        []).bit_tapi_counter.last_epoch := by decide

/-- **C6** (amended): `last_epoch` never decreases provided the call's
`epoch_to_update` is at least the current `last_epoch` (the caller
processes blocks in non-decreasing epoch order); `update_bit_counter`
unconditionally sets `last_epoch = epoch_to_update` at the end. -/
theorem last_epoch_monotone (s : TapiEngine) (v e b : Nat)
    (a : List String) (h : s.bit_tapi_counter.last_epoch ≤ e) :
    s.bit_tapi_counter.last_epoch ≤
      (s.update_bit_counter v e b a).bit_tapi_counter.last_epoch := by
  rw [update_bit_counter_last]
  exact h

/-- **C6** (witness): the amended claim at an engine with
`last_epoch = 9999` updated at epoch 10002. -/
theorem last_epoch_monotone_witness :
    gapWitnessEngine.bit_tapi_counter.last_epoch ≤
      (gapWitnessEngine.update_bit_counter 1 10002 10002
        []).bit_tapi_counter.last_epoch :=
  last_epoch_monotone gapWitnessEngine 1 10002 10002 [] (by decide)

/-- **C8**: `in_emergency_period` returns the fixed 7-member emergency
committee iff on Mainnet with `750 < superblock_index < 1344` (both
bounds strict), `none` otherwise; with the three concrete cases
`(800, Mainnet)`, `(800, Testnet)`, `(50, Mainnet)`. -/
theorem in_emergency_period_spec (i : Nat) (env : Environment) :
    (in_emergency_period i env = some FIRST_EMERGENCY_COMMITTEE ↔
      env = Environment.Mainnet ∧ 750 < i ∧ i < 1344) ∧
    (in_emergency_period i env = none ↔
      ¬(env = Environment.Mainnet ∧ 750 < i ∧ i < 1344)) ∧
    in_emergency_period 800 Environment.Mainnet =
      some FIRST_EMERGENCY_COMMITTEE ∧
    in_emergency_period 800 Environment.Testnet = none ∧
    in_emergency_period 50 Environment.Mainnet = none := by
  have hmain : in_emergency_period i env =
      if env = Environment.Mainnet ∧ 750 < i ∧ i < 1344 then
        some FIRST_EMERGENCY_COMMITTEE
      else none := by
    unfold in_emergency_period
    cases env <;> simp
  refine ⟨?_, ?_, by decide, by decide, by decide⟩
  · rw [hmain]
    by_cases h : env = Environment.Mainnet ∧ 750 < i ∧ i < 1344
    · rw [if_pos h]
      exact iff_of_true rfl h
    · rw [if_neg h]
      exact iff_of_false (by simp) h
  · rw [hmain]
    by_cases h : env = Environment.Mainnet ∧ 750 < i ∧ i < 1344
    · rw [if_pos h]
      exact iff_of_false (by simp) (not_not.mpr h)
    · rw [if_neg h]
      exact iff_of_true rfl h

/-- **C9**: calling `sample` with `size > population.len()` fails with the
distinct `InsufficientPopulation` error, and the caller receives no
committee. -/
theorem sample_insufficient_population {α : Type} (population : List α)
    (size seed : Nat) (h : population.length < size) :
    sample population size seed =
      Except.error SampleError.insufficientPopulation ∧
    ∀ committee, sample population size seed ≠ Except.ok committee := by
  have h1 : sample population size seed =
      Except.error SampleError.insufficientPopulation := by
    unfold sample
    rw [if_neg (by omega)]
  refine ⟨h1, fun committee hc => ?_⟩
  rw [h1] at hc
  exact absurd hc (by simp)

/-- **C9** (witness): a population of 2 cannot yield a committee of 3. -/
theorem sample_insufficient_population_witness :
    sample [1, 2] 3 7 = Except.error SampleError.insufficientPopulation :=
  (sample_insufficient_population [1, 2] 3 7 (by decide)).1

/-- `last_epoch` after a sequence of zero-vote updates over consecutive
epochs `start, ..., start + c - 1`. -/
theorem foldl_update_last (b : Nat) (a : List String) :
    ∀ (c start : Nat) (s : TapiEngine),
    ((List.range' start c).foldl
        (fun st i => st.update_bit_counter 0 i b a) s).bit_tapi_counter.last_epoch =
      if c = 0 then s.bit_tapi_counter.last_epoch else start + c - 1 := by
  intro c
  induction c with
  | zero => intro start s; rfl
  | succ c ih =>
    intro start s
    rw [List.range'_succ]
    show ((List.range' (start + 1) c).foldl _
        (s.update_bit_counter 0 start b a)).bit_tapi_counter.last_epoch = _
    rw [ih (start + 1)]
    rcases Nat.eq_zero_or_pos c with hc | hc
    · subst hc
      rw [if_pos rfl, if_neg (Nat.succ_ne_zero 0), update_bit_counter_last]
      omega
    · rw [if_neg (by omega), if_neg (by omega)]
      omega

/-- **C1**: with a previously processed epoch (`last_epoch ≠ 0`) and a gap
(`epoch_to_update > last_epoch + 1`), one `update_bit_counter` call equals
the sequence of zero-bitmap updates at every skipped epoch in
`(last_epoch, epoch_to_update)` followed by the call at `epoch_to_update`
itself — identical resulting engine state. -/
theorem update_gap_backfill_equiv (s : TapiEngine) (v e b : Nat)
    (a : List String) (h1 : s.bit_tapi_counter.last_epoch ≠ 0)
    (h2 : s.bit_tapi_counter.last_epoch + 1 < e) :
    s.update_bit_counter v e b a =
      ((List.range' (s.bit_tapi_counter.last_epoch + 1)
          (e - (s.bit_tapi_counter.last_epoch + 1))).foldl
        (fun st i => st.update_bit_counter 0 i b a)
        s).update_bit_counter v e b a := by
  rw [update_bit_counter_gap s v e b a h1 h2]
  have hlast : ((List.range' (s.bit_tapi_counter.last_epoch + 1)
      (e - (s.bit_tapi_counter.last_epoch + 1))).foldl
        (fun st i => st.update_bit_counter 0 i b a)
        s).bit_tapi_counter.last_epoch = e - 1 := by
    rw [foldl_update_last b a]
    rw [if_neg (by omega)]
    omega
  rw [update_bit_counter_nogap _ v e b a (by rw [hlast]; omega)]

/-- **C1** (witness): the spec's example — an engine whose last processed
epoch is 9999 updated at 10002 equals the zero-bitmap updates at
10000 and 10001 followed by the update at 10002. -/
theorem update_gap_backfill_equiv_witness :
    gapWitnessEngine.update_bit_counter 1 10002 10002 [] =
      ((List.range' (gapWitnessEngine.bit_tapi_counter.last_epoch + 1)
          (10002 - (gapWitnessEngine.bit_tapi_counter.last_epoch + 1))).foldl
        (fun st i => st.update_bit_counter 0 i 10002 [])
        gapWitnessEngine).update_bit_counter 1 10002 10002 [] :=
  update_gap_backfill_equiv gapWitnessEngine 1 10002 10002 [] (by decide)
    (by decide)

/-! ## Supporting lemmas: the occupied span of the slot table -/

/-- `update_current_length` sets `current_length` to the accumulator scan
and changes nothing else. -/
theorem update_current_length_eq (c : BitTapiCounter) :
    c.update_current_length =
      { c with current_length := scanFoldAux 0 c.info } := rfl

/-- An empty slot array has no occupied slot. -/
theorem slotAt_empty (i : Nat) : slotAt BitTapiCounter.empty i = none := by
  unfold slotAt BitTapiCounter.empty
  show ((List.replicate 32 (none : Option BitVotesCounter))[i]?).getD none =
    none
  rw [List.getElem?_replicate]
  split <;> rfl

/-- The fresh counter satisfies the span invariant. -/
theorem spanInv_empty : spanInv BitTapiCounter.empty := by
  refine ⟨by simp [BitTapiCounter.empty], ?_, Or.inl rfl⟩
  intro i bi h
  rw [slotAt_empty] at h
  exact absurd h (by simp)

/-- Characterization of the `update_current_length` scan: either no slot
is occupied and the accumulator is returned, or the scan returns
`bit + 1` of the last occupied slot. -/
theorem scanFoldAux_cases :
    ∀ (l : List (Option BitVotesCounter)) (k acc : Nat),
    (∀ (i : Nat) (bi : BitVotesCounter),
        (l[i]?).getD none = some bi → bi.bit = k + i) →
    (scanFoldAux acc l = acc ∧
      ∀ i : Nat, (l[i]?).getD none = none) ∨
    (∃ (j : Nat) (bi : BitVotesCounter), (l[j]?).getD none = some bi ∧
      scanFoldAux acc l = k + j + 1 ∧
      ∀ i : Nat, j < i → (l[i]?).getD none = none) := by
  intro l
  induction l with
  | nil =>
    intro k acc _
    exact Or.inl ⟨rfl, fun i => by simp⟩
  | cons x xs ih =>
    intro k acc hbit
    have hbit' : ∀ (i : Nat) (bi : BitVotesCounter),
        (xs[i]?).getD none = some bi → bi.bit = (k + 1) + i := by
      intro i bi h
      have := hbit (i + 1) bi (by simpa using h)
      omega
    cases x with
    | none =>
      have hstep : scanFoldAux acc (none :: xs) = scanFoldAux acc xs := rfl
      rcases ih (k + 1) acc hbit' with ⟨heq, hall⟩ | ⟨j, bi, hj, heq, hafter⟩
      · refine Or.inl ⟨by rw [hstep]; exact heq, ?_⟩
        intro i
        cases i with
        | zero => simp
        | succ i => simpa using hall i
      · refine Or.inr ⟨j + 1, bi, by simpa using hj, ?_, ?_⟩
        · rw [hstep, heq]
          omega
        · intro i hi
          cases i with
          | zero => omega
          | succ i => simpa using hafter i (by omega)
    | some bi0 =>
      have hb0 : bi0.bit = k := by
        have := hbit 0 bi0 (by simp)
        omega
      have hstep : scanFoldAux acc (some bi0 :: xs) =
          scanFoldAux (bi0.bit + 1) xs := rfl
      rcases ih (k + 1) (bi0.bit + 1) hbit' with ⟨heq, hall⟩ |
        ⟨j, bi, hj, heq, hafter⟩
      · refine Or.inr ⟨0, bi0, by simp, ?_, ?_⟩
        · rw [hstep, heq, hb0]
        · intro i hi
          cases i with
          | zero => omega
          | succ i => simpa using hall i
      · refine Or.inr ⟨j + 1, bi, by simpa using hj, ?_, ?_⟩
        · rw [hstep, heq]
          omega
        · intro i hi
          cases i with
          | zero => omega
          | succ i => simpa using hafter i (by omega)

/-- `insert` preserves the span invariant. -/
theorem spanInv_insert (c : BitTapiCounter) (bi : BitVotesCounter)
    (h : spanInv c) : spanInv (c.insert bi) := by
  obtain ⟨hlen, hup, hwit⟩ := h
  by_cases hk : bi.bit ≥ c.info.length
  · unfold BitTapiCounter.insert
    rw [if_pos hk]
    exact ⟨hlen, hup, hwit⟩
  · have hklt : bi.bit < c.info.length := by omega
    have hinfo : (c.insert bi).info = c.info.set bi.bit (some bi) := by
      unfold BitTapiCounter.insert
      rw [if_neg hk]
    have hcl : (c.insert bi).current_length =
        if bi.bit ≥ c.current_length then bi.bit + 1
        else c.current_length := by
      unfold BitTapiCounter.insert
      rw [if_neg hk]
    have hslot_self : slotAt (c.insert bi) bi.bit = some bi := by
      unfold slotAt
      rw [hinfo, List.getElem?_set_self hklt]
      rfl
    have hslot_ne : ∀ i, i ≠ bi.bit →
        slotAt (c.insert bi) i = slotAt c i := by
      intro i hi
      unfold slotAt
      rw [hinfo, List.getElem?_set_ne (Ne.symm hi)]
    have hcl_ge : c.current_length ≤ (c.insert bi).current_length := by
      rw [hcl]
      by_cases hge : bi.bit ≥ c.current_length
      · rw [if_pos hge]
        omega
      · rw [if_neg hge]
    refine ⟨by rw [hinfo]; simpa using hlen, ?_, ?_⟩
    · intro i bi2 hslot
      by_cases hib : i = bi.bit
      · rw [hib, hslot_self] at hslot
        cases hslot
        refine ⟨hib.symm, ?_⟩
        rw [hib, hcl]
        by_cases hge : bi.bit ≥ c.current_length
        · rw [if_pos hge]
          omega
        · rw [if_neg hge]
          omega
      · rw [hslot_ne i hib] at hslot
        obtain ⟨hb, hlt⟩ := hup i bi2 hslot
        exact ⟨hb, lt_of_lt_of_le hlt hcl_ge⟩
    · by_cases hge : bi.bit ≥ c.current_length
      · refine Or.inr ⟨bi, ?_⟩
        rw [hcl, if_pos hge]
        have h1 : bi.bit + 1 - 1 = bi.bit := by omega
        rw [h1, hslot_self]
      · rcases hwit with h0 | ⟨bi2, hbi2⟩
        · left
          rw [hcl, if_neg hge]
          exact h0
        · right
          rw [hcl, if_neg hge]
          by_cases heq : c.current_length - 1 = bi.bit
          · exact ⟨bi, by rw [heq, hslot_self]⟩
          · exact ⟨bi2, by rw [hslot_ne _ heq]; exact hbi2⟩

/-- `remove` preserves the span invariant. -/
theorem spanInv_remove (c : BitTapiCounter) (bit : Nat)
    (h : spanInv c) : spanInv (c.remove bit) := by
  obtain ⟨hlen, hup, hwit⟩ := h
  by_cases hk : bit ≥ c.info.length
  · unfold BitTapiCounter.remove
    rw [if_pos hk]
    exact ⟨hlen, hup, hwit⟩
  · have hslot_ne : ∀ i, i ≠ bit →
        ((c.info.set bit none)[i]?).getD none = slotAt c i := by
      intro i hi
      unfold slotAt
      rw [List.getElem?_set_ne (Ne.symm hi)]
    have hslot_self : ((c.info.set bit none)[bit]?).getD none = none := by
      rw [List.getElem?_set_self (by omega)]
      rfl
    have hbit' : ∀ (i : Nat) (bi : BitVotesCounter),
        ((c.info.set bit none)[i]?).getD none = some bi → bi.bit = 0 + i := by
      intro i bi hslot
      by_cases hib : i = bit
      · rw [hib, hslot_self] at hslot
        exact absurd hslot (by simp)
      · rw [hslot_ne i hib] at hslot
        have := (hup i bi hslot).1
        omega
    unfold BitTapiCounter.remove
    rw [if_neg hk]
    by_cases hlast : bit + 1 = c.current_length
    · rw [if_pos hlast, update_current_length_eq]
      rcases scanFoldAux_cases (c.info.set bit none) 0 0 hbit' with
        ⟨heq, hall⟩ | ⟨j, bi, hj, heq, hafter⟩
      · refine ⟨by simpa using hlen, ?_, ?_⟩
        · intro i bi hslot
          have hslot2 : ((c.info.set bit none)[i]?).getD none = some bi :=
            hslot
          rw [hall i] at hslot2
          exact absurd hslot2 (by simp)
        · left
          exact heq
      · refine ⟨by simpa using hlen, ?_, ?_⟩
        · intro i bi2 hslot
          have hslot2 : ((c.info.set bit none)[i]?).getD none = some bi2 :=
            hslot
          refine ⟨by simpa using hbit' i bi2 hslot2, ?_⟩
          show i < scanFoldAux 0 (c.info.set bit none)
          rw [heq]
          by_cases hij : j < i
          · rw [hafter i hij] at hslot2
            exact absurd hslot2 (by simp)
          · omega
        · right
          show ∃ bi2, ((c.info.set bit none)[scanFoldAux 0
            (c.info.set bit none) - 1]?).getD none = some bi2
          refine ⟨bi, ?_⟩
          rw [heq]
          have h1 : 0 + j + 1 - 1 = j := by omega
          rw [h1]
          exact hj
    · rw [if_neg hlast]
      refine ⟨by simpa using hlen, ?_, ?_⟩
      · intro i bi2 hslot
        have hslot2 : ((c.info.set bit none)[i]?).getD none = some bi2 :=
          hslot
        by_cases hib : i = bit
        · rw [hib, hslot_self] at hslot2
          exact absurd hslot2 (by simp)
        · rw [hslot_ne i hib] at hslot2
          exact hup i bi2 hslot2
      · rcases hwit with h0 | ⟨bi2, hbi2⟩
        · left
          exact h0
        · right
          refine ⟨bi2, ?_⟩
          show ((c.info.set bit none)[c.current_length - 1]?).getD none =
            some bi2
          have hne : c.current_length - 1 ≠ bit := by
            rcases Nat.eq_zero_or_pos c.current_length with hz | hpos
            · have := (hup _ _ hbi2).2
              omega
            · omega
          rw [hslot_ne _ hne]
          exact hbi2

/-- The span invariant holds after any operation sequence from an
invariant state. -/
theorem spanInv_applyOps : ∀ (ops : List RegOp) (c : BitTapiCounter),
    spanInv c → spanInv (applyOps c ops) := by
  intro ops
  induction ops with
  | nil => intro c h; exact h
  | cons op ops ih =>
    intro c h
    show spanInv (applyOps (applyOp c op) ops)
    apply ih
    cases op with
    | register bi => exact spanInv_insert c bi h
    | unregister bit => exact spanInv_remove c bit h

/-- **C7**: after every sequence of register/unregister operations from
the empty registry, `current_length` is exactly `max(bit) + 1` over the
occupied slots, or 0 if none is occupied: every occupied slot stores its
own index in `bit` and lies strictly below `current_length`, and
`current_length` is zero or one past an occupied slot. -/
theorem occupied_span_correct (ops : List RegOp) :
    (∀ i bi, slotAt (applyOps BitTapiCounter.empty ops) i = some bi →
        bi.bit = i ∧
          i < (applyOps BitTapiCounter.empty ops).current_length) ∧
    ((applyOps BitTapiCounter.empty ops).current_length = 0 ∨
      ∃ bi, slotAt (applyOps BitTapiCounter.empty ops)
        ((applyOps BitTapiCounter.empty ops).current_length - 1) =
          some bi) := by
  have h := spanInv_applyOps ops BitTapiCounter.empty spanInv_empty
  exact ⟨h.2.1, h.2.2⟩

/-- **C7** (witness): unregistering the only occupied bit resets
`current_length` to 0, and the span characterization holds for that
operation sequence. -/
theorem occupied_span_correct_witness :
    (applyOps BitTapiCounter.empty
      [RegOp.register wipTest0, RegOp.unregister 0]).current_length = 0 ∧
    ((∀ i bi, slotAt (applyOps BitTapiCounter.empty
        [RegOp.register wipTest0, RegOp.unregister 0]) i = some bi →
        bi.bit = i ∧
          i < (applyOps BitTapiCounter.empty
            [RegOp.register wipTest0, RegOp.unregister 0]).current_length) ∧
      ((applyOps BitTapiCounter.empty
          [RegOp.register wipTest0, RegOp.unregister 0]).current_length =
          0 ∨
        ∃ bi, slotAt (applyOps BitTapiCounter.empty
          [RegOp.register wipTest0, RegOp.unregister 0])
          ((applyOps BitTapiCounter.empty
            [RegOp.register wipTest0,
              RegOp.unregister 0]).current_length - 1) = some bi)) :=
  ⟨by decide,
    occupied_span_correct [RegOp.register wipTest0, RegOp.unregister 0]⟩

/-! ## Supporting lemmas: effect of the bit loop on a tracked slot -/

/-- Zero version bitmaps never set a bit. -/
theorem is_bit_n_activated_zero (n : Nat) :
    is_bit_n_activated 0 n = false := by
  unfold is_bit_n_activated
  rw [Nat.zero_and]
  rfl

/-- Rewriting `votes` with itself is the identity. -/
theorem votes_eta (p : BitVotesCounter) :
    ({ p with votes := p.votes } : BitVotesCounter) = p := rfl

/-- A run of bit-loop steps that avoids index `n` and whose indices carry
WIP names different from `w` leaves slot `n`, the activation lookup of
`w`, every slot's WIP name and the counter metadata unchanged. -/
theorem foldl_step_avoid (v e b : Nat) (a : List String) (n : Nat)
    (w : String) :
    ∀ (L : List Nat) (t : TapiEngine), n ∉ L →
    (∀ m ∈ L, wipOf (slotAt t.bit_tapi_counter m) ≠ some w) →
    slotAt (L.foldl (updateBitStep v e b a) t).bit_tapi_counter n =
        slotAt t.bit_tapi_counter n ∧
      actLookup (L.foldl (updateBitStep v e b a) t).wip_activation w =
        actLookup t.wip_activation w ∧
      (∀ k, wipOf
          (slotAt (L.foldl (updateBitStep v e b a) t).bit_tapi_counter k) =
        wipOf (slotAt t.bit_tapi_counter k)) ∧
      (L.foldl (updateBitStep v e b a) t).bit_tapi_counter.current_length =
        t.bit_tapi_counter.current_length ∧
      (L.foldl (updateBitStep v e b a) t).bit_tapi_counter.last_epoch =
        t.bit_tapi_counter.last_epoch := by
  intro L
  induction L with
  | nil => intro t _ _; exact ⟨rfl, rfl, fun k => rfl, rfl, rfl⟩
  | cons m L ih =>
    intro t hn hw
    have hmn : m ≠ n := fun hc => hn (hc ▸ List.mem_cons_self m L)
    have hstep : L.foldl (updateBitStep v e b a)
        (updateBitStep v e b a t m) =
        (m :: L).foldl (updateBitStep v e b a) t := rfl
    obtain ⟨hm1, hm2, hm3⟩ := updateBitStep_meta v e b a t m
    have hw' : ∀ m2 ∈ L, wipOf
        (slotAt (updateBitStep v e b a t m).bit_tapi_counter m2) ≠
        some w := by
      intro m2 hm2'
      rw [updateBitStep_wipOf]
      exact hw m2 (List.mem_cons_of_mem _ hm2')
    obtain ⟨c1, c2, c3, c4, c5⟩ := ih (updateBitStep v e b a t m)
      (fun hc => hn (List.mem_cons_of_mem _ hc)) hw'
    rw [← hstep]
    refine ⟨?_, ?_, ?_, ?_, ?_⟩
    · rw [c1, updateBitStep_slot_ne v e b a t m n hmn]
    · rw [c2, updateBitStep_act_ne v e b a t m w
        (hw m (List.mem_cons_self m L))]
    · intro k
      rw [c3 k, updateBitStep_wipOf]
    · rw [c4, hm2]
    · rw [c5, hm1]

/-- Exact effect of the bit-loop step at the tracked index `n`: the vote
is counted, and on a period boundary the threshold decides a fresh
activation entry while the tally resets. -/
theorem updateBitStep_at_n (v e b : Nat) (a : List String) (n : Nat)
    (t : TapiEngine) (p : BitVotesCounter)
    (hslot : slotAt t.bit_tapi_counter n = some p)
    (hwin : p.init ≤ e ∧ e < p.«end»)
    (hact : actLookup t.wip_activation p.wip = none)
    (havoid : p.wip ∉ a) :
    slotAt (updateBitStep v e b a t n).bit_tapi_counter n =
        some { p with votes :=
          if (e - p.init) % p.period = 0 then 0
          else if is_bit_n_activated v n then (p.votes + 1) % 4294967296
          else p.votes } ∧
      actLookup (updateBitStep v e b a t n).wip_activation p.wip =
        (if (e - p.init) % p.period = 0 ∧
            80 ≤ (if is_bit_n_activated v n then (p.votes + 1) % 4294967296
              else p.votes) * 100 % 4294967296 / p.period then
          some ((b + 21) % 4294967296)
        else none) := by
  have hlt : n < t.bit_tapi_counter.info.length := slotAt_some_lt hslot
  unfold updateBitStep
  rw [get_of_slot_some hslot, if_pos hwin]
  dsimp only
  rw [if_pos ⟨hact, havoid⟩]
  by_cases hb : (e - p.init) % p.period = 0
  · rw [if_pos hb]
    constructor
    · show ((t.bit_tapi_counter.info.set n _)[n]?).getD none = _
      rw [List.getElem?_set_self hlt, if_pos hb]
      rfl
    · by_cases h3 : 80 ≤ (if is_bit_n_activated v n then
          (p.votes + 1) % 4294967296 else p.votes) * 100 % 4294967296 /
          p.period
      · show actLookup (if _ then actInsert _ _ _ else _) p.wip = _
        rw [if_pos h3, if_pos ⟨hb, h3⟩]
        show actLookup ((p.wip, _) :: _) p.wip = _
        rw [actLookup_cons, if_pos rfl]
      · show actLookup (if _ then actInsert _ _ _ else _) p.wip = _
        rw [if_neg h3, if_neg (fun hc => h3 hc.2)]
        exact hact
  · rw [if_neg hb]
    constructor
    · show ((t.bit_tapi_counter.info.set n _)[n]?).getD none = _
      rw [List.getElem?_set_self hlt, if_neg hb]
      rfl
    · rw [if_neg (show ¬((e - p.init) % p.period = 0 ∧
          80 ≤ (if is_bit_n_activated v n then (p.votes + 1) % 4294967296
            else p.votes) * 100 % 4294967296 / p.period) from
        fun hc => hb hc.1)]
      exact hact

/-- Splitting the index range of the bit loop around a tracked index. -/
theorem range_split (n len : Nat) (h : n < len) :
    List.range len =
      List.range' 0 n ++ n :: List.range' (n + 1) (len - n - 1) := by
  rw [List.range_eq_range']
  have h2 := List.range'_append 0 n (len - n) 1
  simp only [Nat.one_mul, Nat.zero_add] at h2
  have h3 : len - n + n = len := by omega
  rw [h3] at h2
  rw [← h2]
  have h4 : len - n = (len - n - 1) + 1 := by omega
  rw [h4, List.range'_succ]
  have h5 : len - n - 1 + 1 - 1 = len - n - 1 := by omega
  rw [h5]

/-- Exact effect of the whole bit loop (`processEpoch`) on a tracked
occupied slot `n` whose WIP is unactivated, not suppressed, unique by
name, and whose window contains the epoch. -/
theorem processEpoch_effect (t : TapiEngine) (v e b : Nat)
    (a : List String) (n : Nat) (p : BitVotesCounter)
    (hn : n < t.bit_tapi_counter.current_length)
    (hslot : slotAt t.bit_tapi_counter n = some p)
    (hwin : p.init ≤ e ∧ e < p.«end»)
    (hact : actLookup t.wip_activation p.wip = none)
    (havoid : p.wip ∉ a)
    (hdis : ∀ m, m < t.bit_tapi_counter.current_length → m ≠ n →
      wipOf (slotAt t.bit_tapi_counter m) ≠ some p.wip) :
    slotAt (processEpoch t v e b a).bit_tapi_counter n =
        some { p with votes :=
          if (e - p.init) % p.period = 0 then 0
          else if is_bit_n_activated v n then (p.votes + 1) % 4294967296
          else p.votes } ∧
      actLookup (processEpoch t v e b a).wip_activation p.wip =
        (if (e - p.init) % p.period = 0 ∧
            80 ≤ (if is_bit_n_activated v n then (p.votes + 1) % 4294967296
              else p.votes) * 100 % 4294967296 / p.period then
          some ((b + 21) % 4294967296)
        else none) ∧
      (∀ k, wipOf (slotAt (processEpoch t v e b a).bit_tapi_counter k) =
        wipOf (slotAt t.bit_tapi_counter k)) ∧
      (processEpoch t v e b a).bit_tapi_counter.current_length =
        t.bit_tapi_counter.current_length ∧
      (processEpoch t v e b a).bit_tapi_counter.last_epoch = e := by
  have hsplit := range_split n t.bit_tapi_counter.current_length hn
  obtain ⟨p1slot, p1act, p1wip, p1cl, p1last⟩ :=
    foldl_step_avoid v e b a n p.wip (List.range' 0 n) t
      (fun hc => by have := List.mem_range'_1.mp hc; omega)
      (fun m hm => by
        have hb2 := List.mem_range'_1.mp hm
        exact hdis m (by omega) (by omega))
  obtain ⟨nslot, nact⟩ := updateBitStep_at_n v e b a n
    ((List.range' 0 n).foldl (updateBitStep v e b a) t) p
    (by rw [p1slot]; exact hslot) hwin (by rw [p1act]; exact hact) havoid
  obtain ⟨nm1, nm2, nm3⟩ := updateBitStep_meta v e b a
    ((List.range' 0 n).foldl (updateBitStep v e b a) t) n
  obtain ⟨p3slot, p3act, p3wip, p3cl, p3last⟩ :=
    foldl_step_avoid v e b a n p.wip
      (List.range' (n + 1) (t.bit_tapi_counter.current_length - n - 1))
      (updateBitStep v e b a
        ((List.range' 0 n).foldl (updateBitStep v e b a) t) n)
      (fun hc => by have := List.mem_range'_1.mp hc; omega)
      (fun m hm => by
        have hb2 := List.mem_range'_1.mp hm
        have h1 : wipOf (slotAt (updateBitStep v e b a
            ((List.range' 0 n).foldl (updateBitStep v e b a) t)
            n).bit_tapi_counter m) =
            wipOf (slotAt t.bit_tapi_counter m) := by
          rw [updateBitStep_wipOf, p1wip]
        rw [h1]
        exact hdis m (by omega) (by omega))
  have hfold : (List.range t.bit_tapi_counter.current_length).foldl
      (updateBitStep v e b a) t =
      (List.range' (n + 1)
        (t.bit_tapi_counter.current_length - n - 1)).foldl
        (updateBitStep v e b a)
        (updateBitStep v e b a
          ((List.range' 0 n).foldl (updateBitStep v e b a) t) n) := by
    rw [hsplit, List.foldl_append]
    rfl
  refine ⟨?_, ?_, ?_, ?_, processEpoch_last t v e b a⟩
  · show slotAt ((List.range
        t.bit_tapi_counter.current_length).foldl
        (updateBitStep v e b a) t).bit_tapi_counter n = _
    rw [hfold, p3slot, nslot]
  · show actLookup ((List.range
        t.bit_tapi_counter.current_length).foldl
        (updateBitStep v e b a) t).wip_activation p.wip = _
    rw [hfold, p3act, nact]
  · intro k
    show wipOf (slotAt ((List.range
        t.bit_tapi_counter.current_length).foldl
        (updateBitStep v e b a) t).bit_tapi_counter k) = _
    rw [hfold, p3wip k, updateBitStep_wipOf, p1wip k]
  · show ((List.range t.bit_tapi_counter.current_length).foldl
        (updateBitStep v e b a) t).bit_tapi_counter.current_length = _
    rw [hfold, p3cl, nm2, p1cl]

/-- A bit-loop step whose window check fails is a no-op. -/
theorem updateBitStep_miss (v e b : Nat) (a : List String)
    (t : TapiEngine) (n : Nat) (h : t.bit_tapi_counter.get n e = none) :
    updateBitStep v e b a t n = t := by
  unfold updateBitStep
  rw [h]

/-- A zero-vote `processEpoch` at an epoch that is not an in-window period
boundary of the tracked proposal leaves the tracked slot and its
activation status untouched. -/
theorem processEpoch_benign (t : TapiEngine) (i b : Nat) (a : List String)
    (n : Nat) (p : BitVotesCounter)
    (hn : n < t.bit_tapi_counter.current_length)
    (hslot : slotAt t.bit_tapi_counter n = some p)
    (hact : actLookup t.wip_activation p.wip = none)
    (havoid : p.wip ∉ a)
    (hdis : ∀ m, m < t.bit_tapi_counter.current_length → m ≠ n →
      wipOf (slotAt t.bit_tapi_counter m) ≠ some p.wip)
    (hben : ¬(p.init ≤ i ∧ i < p.«end» ∧ (i - p.init) % p.period = 0)) :
    slotAt (processEpoch t 0 i b a).bit_tapi_counter n = some p ∧
      actLookup (processEpoch t 0 i b a).wip_activation p.wip = none ∧
      (∀ k, wipOf (slotAt (processEpoch t 0 i b a).bit_tapi_counter k) =
        wipOf (slotAt t.bit_tapi_counter k)) ∧
      (processEpoch t 0 i b a).bit_tapi_counter.current_length =
        t.bit_tapi_counter.current_length ∧
      (processEpoch t 0 i b a).bit_tapi_counter.last_epoch = i := by
  by_cases hwin : p.init ≤ i ∧ i < p.«end»
  · have hnb : (i - p.init) % p.period ≠ 0 := fun hc =>
      hben ⟨hwin.1, hwin.2, hc⟩
    obtain ⟨c1, c2, c3, c4, c5⟩ :=
      processEpoch_effect t 0 i b a n p hn hslot hwin hact havoid hdis
    refine ⟨?_, ?_, c3, c4, c5⟩
    · rw [c1, if_neg hnb, is_bit_n_activated_zero]
      simp
    · rw [c2, if_neg (show ¬((i - p.init) % p.period = 0 ∧
          80 ≤ (if is_bit_n_activated 0 n then (p.votes + 1) % 4294967296
            else p.votes) * 100 % 4294967296 / p.period) from
        fun hc => hnb hc.1)]
  · have hsplit := range_split n t.bit_tapi_counter.current_length hn
    obtain ⟨p1slot, p1act, p1wip, p1cl, p1last⟩ :=
      foldl_step_avoid 0 i b a n p.wip (List.range' 0 n) t
        (fun hc => by have := List.mem_range'_1.mp hc; omega)
        (fun m hm => by
          have hb2 := List.mem_range'_1.mp hm
          exact hdis m (by omega) (by omega))
    have hmiss : updateBitStep 0 i b a
        ((List.range' 0 n).foldl (updateBitStep 0 i b a) t) n =
        (List.range' 0 n).foldl (updateBitStep 0 i b a) t :=
      updateBitStep_miss 0 i b a _ n
        (by rw [get_of_slot_some (by rw [p1slot]; exact hslot)]
            exact if_neg hwin)
    obtain ⟨p3slot, p3act, p3wip, p3cl, p3last⟩ :=
      foldl_step_avoid 0 i b a n p.wip
        (List.range' (n + 1) (t.bit_tapi_counter.current_length - n - 1))
        ((List.range' 0 n).foldl (updateBitStep 0 i b a) t)
        (fun hc => by have := List.mem_range'_1.mp hc; omega)
        (fun m hm => by
          have hb2 := List.mem_range'_1.mp hm
          rw [p1wip]
          exact hdis m (by omega) (by omega))
    have hfold : (List.range t.bit_tapi_counter.current_length).foldl
        (updateBitStep 0 i b a) t =
        (List.range' (n + 1)
          (t.bit_tapi_counter.current_length - n - 1)).foldl
          (updateBitStep 0 i b a)
          ((List.range' 0 n).foldl (updateBitStep 0 i b a) t) := by
      rw [hsplit, List.foldl_append]
      show (List.range' (n + 1) _).foldl _
        (updateBitStep 0 i b a
          ((List.range' 0 n).foldl (updateBitStep 0 i b a) t) n) = _
      rw [hmiss]
    refine ⟨?_, ?_, ?_, ?_, processEpoch_last t 0 i b a⟩
    · show slotAt ((List.range
          t.bit_tapi_counter.current_length).foldl
          (updateBitStep 0 i b a) t).bit_tapi_counter n = _
      rw [hfold, p3slot, p1slot]
      exact hslot
    · show actLookup ((List.range
          t.bit_tapi_counter.current_length).foldl
          (updateBitStep 0 i b a) t).wip_activation p.wip = _
      rw [hfold, p3act, p1act]
      exact hact
    · intro k
      show wipOf (slotAt ((List.range
          t.bit_tapi_counter.current_length).foldl
          (updateBitStep 0 i b a) t).bit_tapi_counter k) = _
      rw [hfold, p3wip k, p1wip k]
    · show ((List.range t.bit_tapi_counter.current_length).foldl
          (updateBitStep 0 i b a) t).bit_tapi_counter.current_length = _
      rw [hfold, p3cl, p1cl]

/-- Over consecutive epochs starting right after `last_epoch`, the
recursive updates of the gap backfill all take the no-gap branch, so the
backfill is a plain sequence of bit-loop passes. -/
theorem foldl_update_eq_foldl_processEpoch (b : Nat) (a : List String) :
    ∀ (c start : Nat) (s : TapiEngine),
    s.bit_tapi_counter.last_epoch + 1 = start →
    (List.range' start c).foldl
        (fun st i => st.update_bit_counter 0 i b a) s =
      (List.range' start c).foldl
        (fun st i => processEpoch st 0 i b a) s := by
  intro c
  induction c with
  | zero => intro start s _; rfl
  | succ c ih =>
    intro start s hlast
    rw [List.range'_succ]
    show (List.range' (start + 1) c).foldl _
        (s.update_bit_counter 0 start b a) =
      (List.range' (start + 1) c).foldl _ (processEpoch s 0 start b a)
    rw [update_bit_counter_nogap s 0 start b a (by omega)]
    exact ih (start + 1) (processEpoch s 0 start b a)
      (by rw [processEpoch_last])

/-- Exact effect of a full `update_bit_counter` call on a tracked slot,
provided no period boundary of the tracked proposal falls inside the
backfilled gap. -/
theorem update_effect (s : TapiEngine) (v E b : Nat) (a : List String)
    (n : Nat) (p : BitVotesCounter)
    (hn : n < s.bit_tapi_counter.current_length)
    (hslot : slotAt s.bit_tapi_counter n = some p)
    (hwin : p.init ≤ E ∧ E < p.«end»)
    (hact : actLookup s.wip_activation p.wip = none)
    (havoid : p.wip ∉ a)
    (hdis : ∀ m, m < s.bit_tapi_counter.current_length → m ≠ n →
      wipOf (slotAt s.bit_tapi_counter m) ≠ some p.wip)
    (hgapben : ∀ i, s.bit_tapi_counter.last_epoch ≠ 0 →
      s.bit_tapi_counter.last_epoch < i → i < E →
      ¬(p.init ≤ i ∧ i < p.«end» ∧ (i - p.init) % p.period = 0)) :
    slotAt (s.update_bit_counter v E b a).bit_tapi_counter n =
        some { p with votes :=
          if (E - p.init) % p.period = 0 then 0
          else if is_bit_n_activated v n then (p.votes + 1) % 4294967296
          else p.votes } ∧
      actLookup (s.update_bit_counter v E b a).wip_activation p.wip =
        (if (E - p.init) % p.period = 0 ∧
            80 ≤ (if is_bit_n_activated v n then (p.votes + 1) % 4294967296
              else p.votes) * 100 % 4294967296 / p.period then
          some ((b + 21) % 4294967296)
        else none) ∧
      (∀ k, wipOf
          (slotAt (s.update_bit_counter v E b a).bit_tapi_counter k) =
        wipOf (slotAt s.bit_tapi_counter k)) ∧
      (s.update_bit_counter v E b a).bit_tapi_counter.current_length =
        s.bit_tapi_counter.current_length ∧
      (s.update_bit_counter v E b a).bit_tapi_counter.last_epoch = E := by
  by_cases hgap : s.bit_tapi_counter.last_epoch ≠ 0 ∧
      s.bit_tapi_counter.last_epoch + 1 < E
  · rw [update_bit_counter_gap s v E b a hgap.1 hgap.2,
      foldl_update_eq_foldl_processEpoch b a _ _ s rfl]
    have haux : ∀ (L : List Nat),
        (∀ i ∈ L, ¬(p.init ≤ i ∧ i < p.«end» ∧
          (i - p.init) % p.period = 0)) →
        ∀ (t : TapiEngine),
        slotAt t.bit_tapi_counter n = some p →
        actLookup t.wip_activation p.wip = none →
        (∀ k, wipOf (slotAt t.bit_tapi_counter k) =
          wipOf (slotAt s.bit_tapi_counter k)) →
        t.bit_tapi_counter.current_length =
          s.bit_tapi_counter.current_length →
        slotAt (L.foldl (fun st i => processEpoch st 0 i b a)
            t).bit_tapi_counter n = some p ∧
          actLookup (L.foldl (fun st i => processEpoch st 0 i b a)
            t).wip_activation p.wip = none ∧
          (∀ k, wipOf (slotAt (L.foldl
              (fun st i => processEpoch st 0 i b a) t).bit_tapi_counter k) =
            wipOf (slotAt s.bit_tapi_counter k)) ∧
          (L.foldl (fun st i => processEpoch st 0 i b a)
            t).bit_tapi_counter.current_length =
            s.bit_tapi_counter.current_length := by
      intro L
      induction L with
      | nil => intro _ t h1 h2 h3 h4; exact ⟨h1, h2, h3, h4⟩
      | cons i L ihL =>
        intro hben t h1 h2 h3 h4
        obtain ⟨c1, c2, c3, c4, c5⟩ := processEpoch_benign t i b a n p
          (by rw [h4]; exact hn) h1 h2 havoid
          (fun m hm hmn => by
            rw [h3 m]
            exact hdis m (by rw [← h4]; exact hm) hmn)
          (hben i (List.mem_cons_self i L))
        exact ihL (fun j hj => hben j (List.mem_cons_of_mem _ hj))
          (processEpoch t 0 i b a) c1 c2
          (fun k => by rw [c3 k]; exact h3 k) (by rw [c4]; exact h4)
    obtain ⟨f1, f2, f3, f4⟩ := haux
      (List.range' (s.bit_tapi_counter.last_epoch + 1)
        (E - (s.bit_tapi_counter.last_epoch + 1)))
      (fun i hi => by
        have := List.mem_range'_1.mp hi
        exact hgapben i hgap.1 (by omega) (by omega))
      s hslot hact (fun k => rfl) rfl
    obtain ⟨c1, c2, c3, c4, c5⟩ := processEpoch_effect
      ((List.range' (s.bit_tapi_counter.last_epoch + 1)
        (E - (s.bit_tapi_counter.last_epoch + 1))).foldl
        (fun st i => processEpoch st 0 i b a) s) v E b a n p
      (by rw [f4]; exact hn) f1 hwin f2 havoid
      (fun m hm hmn => by
        rw [f3 m]
        exact hdis m (by rw [← f4]; exact hm) hmn)
    exact ⟨c1, c2, fun k => by rw [c3 k]; exact f3 k,
      by rw [c4]; exact f4, c5⟩
  · rw [update_bit_counter_nogap s v E b a hgap]
    exact processEpoch_effect s v E b a n p hn hslot hwin hact havoid hdis

/-- Unfolding the boolean name-uniqueness check. -/
theorem distinctWips_spec {c : BitTapiCounter} {n : Nat} {w : String}
    (h : distinctWips c n w = true) :
    ∀ m, m < c.current_length → m ≠ n → wipOf (slotAt c m) ≠ some w := by
  intro m hm hmn
  have h2 := List.all_eq_true.mp h m (List.mem_range.mpr hm)
  simp only [Bool.or_eq_true, beq_iff_eq, bne_iff_ne] at h2
  rcases h2 with h3 | h3
  · exact absurd h3 hmn
  · exact h3

/-- Unfolding the boolean boundary-free-gap check. -/
theorem noBoundaryIn_spec {p : BitVotesCounter} {first cnt : Nat}
    (h : noBoundaryIn p first cnt = true) :
    ∀ i, first ≤ i → i < first + cnt →
      ¬(p.init ≤ i ∧ i < p.«end» ∧ (i - p.init) % p.period = 0) := by
  intro i h1 h2 hc
  have h3 := List.all_eq_true.mp h i (List.mem_range'_1.mpr ⟨h1, h2⟩)
  rw [Bool.not_eq_true', decide_eq_false_iff_not] at h3
  exact h3 hc

/-- **C4**: when a proposal active at `epoch_to_update` reaches a period
boundary (`(epoch_to_update - init) % period = 0`), `update_bit_counter`
evaluates `votes * 100 / period >= 80` on the updated tally and, if met,
inserts `name -> block_epoch + 21` into the activation map; in either
case the tally is reset to 0.  (`% 2^32` mirrors the source's `u32`
arithmetic; the hypothesis `hgap` keeps any backfilled gap free of
earlier period boundaries of this proposal.) -/
theorem update_period_boundary (s : TapiEngine) (v E b : Nat)
    (a : List String) (n : Nat) (p : BitVotesCounter)
    (hn : n < s.bit_tapi_counter.current_length)
    (hslot : slotAt s.bit_tapi_counter n = some p)
    (hwin : p.init ≤ E ∧ E < p.«end»)
    (hbound : (E - p.init) % p.period = 0)
    (hact : actLookup s.wip_activation p.wip = none)
    (havoid : p.wip ∉ a)
    (hdis : distinctWips s.bit_tapi_counter n p.wip = true)
    (hgap : s.bit_tapi_counter.last_epoch = 0 ∨
      noBoundaryIn p (s.bit_tapi_counter.last_epoch + 1)
        (E - (s.bit_tapi_counter.last_epoch + 1)) = true) :
    slotAt (s.update_bit_counter v E b a).bit_tapi_counter n =
        some { p with votes := 0 } ∧
      actLookup (s.update_bit_counter v E b a).wip_activation p.wip =
        (if 80 ≤ (if is_bit_n_activated v n then (p.votes + 1) % 4294967296
            else p.votes) * 100 % 4294967296 / p.period then
          some ((b + 21) % 4294967296)
        else none) := by
  have hgapben : ∀ i, s.bit_tapi_counter.last_epoch ≠ 0 →
      s.bit_tapi_counter.last_epoch < i → i < E →
      ¬(p.init ≤ i ∧ i < p.«end» ∧ (i - p.init) % p.period = 0) := by
    intro i h0 hi1 hi2
    rcases hgap with hz | hnbg
    · exact absurd hz h0
    · exact noBoundaryIn_spec hnbg i (by omega) (by omega)
  obtain ⟨c1, c2, -, -, -⟩ := update_effect s v E b a n p hn hslot hwin
    hact havoid (distinctWips_spec hdis) hgapben
  constructor
  · rw [c1, if_pos hbound]
  · rw [c2]
    by_cases h3 : 80 ≤ (if is_bit_n_activated v n then
        (p.votes + 1) % 4294967296 else p.votes) * 100 % 4294967296 /
        p.period
    · rw [if_pos ⟨hbound, h3⟩, if_pos h3]
    · rw [if_neg (show ¬((E - p.init) % p.period = 0 ∧
          80 ≤ (if is_bit_n_activated v n then (p.votes + 1) % 4294967296
            else p.votes) * 100 % 4294967296 / p.period) from
        fun hc => h3 hc.2), if_neg h3]

set_option maxRecDepth 100000 in
/-- **C4** (witness): the spec's end-to-end scenario — after registering
`test0` and voting yes at epochs 10001–10089, the rollover call at epoch
10100 resets the tally to 0 and activates `test0` at `10100 + 21`. -/
theorem update_period_boundary_witness :
    slotAt (tapiVoted89.update_bit_counter 1 10100 10100
        []).bit_tapi_counter 0 =
      some { votes := 0, period := 100, wip := "test0", init := 10000, «end» := 20000, bit := 0 } ∧
    actLookup (tapiVoted89.update_bit_counter 1 10100 10100
        []).wip_activation "test0" = some 10121 := by
  obtain ⟨c1, c2⟩ := update_period_boundary tapiVoted89 1 10100 10100 [] 0
    (⟨89, 100, "test0", 10000, 20000, 0⟩ : BitVotesCounter)
    (by decide) (by decide) (by decide) (by decide) (by decide)
    (by decide) (by decide) (by decide)
  exact ⟨c1, by rw [c2]; decide⟩

/-- **C10** (amended): update has no replay protection — two identical
calls at the same in-window, non-boundary epoch with the proposal's bit
set count the vote twice, provided no period boundary of the proposal
falls inside the first call's backfilled gap and no other slot shares
its WIP name. -/
theorem update_replay_counts_twice (s : TapiEngine) (v E b : Nat)
    (a : List String) (n : Nat) (p : BitVotesCounter)
    (hn : n < s.bit_tapi_counter.current_length)
    (hslot : slotAt s.bit_tapi_counter n = some p)
    (hwin : p.init ≤ E ∧ E < p.«end»)
    (hnb : (E - p.init) % p.period ≠ 0)
    (hbit : is_bit_n_activated v n = true)
    (hact : actLookup s.wip_activation p.wip = none)
    (havoid : p.wip ∉ a)
    (hdis : distinctWips s.bit_tapi_counter n p.wip = true)
    (hgap : s.bit_tapi_counter.last_epoch = 0 ∨
      noBoundaryIn p (s.bit_tapi_counter.last_epoch + 1)
        (E - (s.bit_tapi_counter.last_epoch + 1)) = true)
    (hv : p.votes + 2 < 4294967296) :
    slotAt ((s.update_bit_counter v E b a).update_bit_counter v E b
        a).bit_tapi_counter n = some { p with votes := p.votes + 2 } := by
  have hgapben : ∀ i, s.bit_tapi_counter.last_epoch ≠ 0 →
      s.bit_tapi_counter.last_epoch < i → i < E →
      ¬(p.init ≤ i ∧ i < p.«end» ∧ (i - p.init) % p.period = 0) := by
    intro i h0 hi1 hi2
    rcases hgap with hz | hnbg
    · exact absurd hz h0
    · exact noBoundaryIn_spec hnbg i (by omega) (by omega)
  obtain ⟨c1, c2, c3, c4, c5⟩ := update_effect s v E b a n p hn hslot hwin
    hact havoid (distinctWips_spec hdis) hgapben
  have hp1 : slotAt (s.update_bit_counter v E b a).bit_tapi_counter n =
      some { p with votes := p.votes + 1 } := by
    rw [c1, if_neg hnb, if_pos hbit, Nat.mod_eq_of_lt (by omega)]
  have hact1 : actLookup (s.update_bit_counter v E b
      a).wip_activation p.wip = none := by
    rw [c2, if_neg (show ¬((E - p.init) % p.period = 0 ∧
        80 ≤ (if is_bit_n_activated v n then (p.votes + 1) % 4294967296
          else p.votes) * 100 % 4294967296 / p.period) from
      fun hc => hnb hc.1)]
  obtain ⟨d1, -, -, -, -⟩ := update_effect (s.update_bit_counter v E b a)
    v E b a n { p with votes := p.votes + 1 }
    (by rw [c4]; exact hn) hp1 (by simpa using hwin)
    (by simpa using hact1) (by simpa using havoid)
    (fun m hm hmn => by
      rw [c3 m]
      refine fun hc => distinctWips_spec hdis m ?_ hmn ?_
      · rw [← c4]; exact hm
      · simpa using hc)
    (fun i h0 hi1 hi2 => by
      rw [c5] at hi1
      exact absurd hi2 (by omega))
  rw [d1]
  have e1 : ({ p with votes := p.votes + 1 } : BitVotesCounter).init =
      p.init := rfl
  have e2 : ({ p with votes := p.votes + 1 } : BitVotesCounter).period =
      p.period := rfl
  have e3 : ({ p with votes := p.votes + 1 } : BitVotesCounter).votes =
      p.votes + 1 := rfl
  rw [e1, e2, e3, if_neg hnb, if_pos hbit, Nat.mod_eq_of_lt (by omega)]

set_option maxRecDepth 100000 in
/-- **C10** (counterexample): the unamended claim fails when the first
call backfills a gap containing a period boundary.  With 80 votes
accumulated, window `[100, 10000)`, period 100, `last_epoch = 150`, two
calls at epoch 202 with bit 0 set leave the tally at 0 — the gap
backfill crosses the boundary at epoch 200, activates the WIP and resets
the tally — not at `80 + 2 = 82` as the claim requires. -/
theorem update_replay_cex :
    (slotAt ((replayCexEngine.update_bit_counter 1 202 202
        []).update_bit_counter 1 202 202 []).bit_tapi_counter 0).map
      (fun q => q.votes) = some 0 ∧
    (slotAt ((replayCexEngine.update_bit_counter 1 202 202
        []).update_bit_counter 1 202 202 []).bit_tapi_counter 0).map
      (fun q => q.votes) ≠ some (replayCexProposal.votes + 2) := by
  decide

set_option maxRecDepth 100000 in
/-- **C10** (witness): two identical calls at epoch 10001 on a fresh
engine with `test0` registered count the vote twice. -/
theorem update_replay_counts_twice_witness :
    slotAt ((tapiTest0.update_bit_counter 1 10001 10001
        []).update_bit_counter 1 10001 10001 []).bit_tapi_counter 0 =
      some { votes := 2, period := 100, wip := "test0", init := 10000, «end» := 20000, bit := 0 } :=
  update_replay_counts_twice tapiTest0 1 10001 10001 [] 0
    (⟨0, 100, "test0", 10000, 20000, 0⟩ : BitVotesCounter)
    (by decide) (by decide) (by decide) (by decide) (by decide)
    (by decide) (by decide) (by decide) (Or.inl (by decide)) (by decide)
